import Mathlib

/-!
Verification of the commit-diff reconciliation engine of watchdog-utils
(src/services/github_service.rs) against its specification.

The Rust code is shallowly embedded: strings are lists of characters,
the GitHub HTTP surface is an explicit environment of call results, and
each Rust function becomes a Lean function of the same name.  File I/O on
the checkpoint file `base_commit.txt` is modelled by the `checkpoint`
field of the environment (the prior contents, `none` when the file is
absent) and by the `checkpoint` field of the run result (the contents
after the run).  Logging is not modelled.  The Rust regex character class
`[\w\d]` is modelled over the ASCII word characters (letters, digits and
the underscore); all paths exercised by the repository are ASCII.
-/

set_option autoImplicit false

namespace Watchdog

/-- Strings of the Rust source, modelled as lists of characters. -/
abbrev Str := List Char

/-- Model of Rust `str::contains` for a literal pattern: `needle` occurs
contiguously somewhere in `hay`. -/
def strContains (hay needle : Str) : Bool :=
  needle.isPrefixOf hay ||
    match hay with
    | [] => false
    | _ :: t => strContains t needle

/-- Split on every newline character, keeping empty pieces, as
`str::split` with pattern a newline does. -/
def splitNl : Str → List Str
  | [] => [[]]
  | c :: t =>
    if c = '\n' then [] :: splitNl t
    else
      match splitNl t with
      | [] => [[c]]
      | l :: ls => (c :: l) :: ls

/-- Strip one trailing carriage return, as Rust `str::lines` does to each
line. -/
def stripCR (s : Str) : Str :=
  if s.getLast? = some '\r' then s.dropLast else s

/-- Model of Rust `str::lines`: split on newlines, drop the final empty
piece produced by a trailing newline, strip one trailing carriage return
from each line. -/
def rustLines (s : Str) : List Str :=
  let ps := splitNl s
  (if ps.getLast? = some [] then ps.dropLast else ps).map stripCR

/-- The character class `[\w\d]` of the source regexes, over ASCII. -/
def isWordChar (c : Char) : Bool :=
  c.isAlphanum || c = '_'

/-- The literal part of the access regex
`diff --git a/(access/([^/]+)/([^/]+)/([\w\d]+))` up to group 2. -/
def accessLit : Str := "diff --git a/access/".toList

/-- The literal part of the names regex `diff --git a/(names/([\w\d]+))`
up to group 2. -/
def namesLit : Str := "diff --git a/names/".toList

/-- Matching of the tail `([^/]+)/([^/]+)/([\w\d]+)` of the access regex
at a fixed position: each `[^/]+` is greedy and must be followed by a
slash, so it is exactly the run up to the next slash; the final `[\w\d]+`
is the maximal word-character run.  Returns the captures
(project, provider, hash) of groups 2, 3, 4. -/
def parseAccessTail (rest : Str) : Option (Str × Str × Str) :=
  match rest.dropWhile (fun c => c ≠ '/') with
  | '/' :: r2 =>
    match r2.dropWhile (fun c => c ≠ '/') with
    | '/' :: r4 =>
      if (rest.takeWhile (fun c => c ≠ '/')).isEmpty || (r2.takeWhile (fun c => c ≠ '/')).isEmpty
          || (r4.takeWhile isWordChar).isEmpty then none
      else some (rest.takeWhile (fun c => c ≠ '/'), r2.takeWhile (fun c => c ≠ '/'), r4.takeWhile isWordChar)
    | _ => none
  | _ => none

/-- Matching of the tail `([\w\d]+)` of the names regex at a fixed
position: the capture of group 2. -/
def parseNamesTail (rest : Str) : Option Str :=
  if (rest.takeWhile isWordChar).isEmpty then none else some (rest.takeWhile isWordChar)

/-- Leftmost match of the access regex in one line: the first position
whose literal prefix and tail both match. -/
def findAccessMatch : Str → Option (Str × Str × Str)
  | [] => none
  | c :: t =>
    match if accessLit.isPrefixOf (c :: t) then parseAccessTail ((c :: t).drop accessLit.length) else none with
    | some r => some r
    | none => findAccessMatch t

/-- Leftmost match of the names regex in one line. -/
def findNamesMatch : Str → Option Str
  | [] => none
  | c :: t =>
    match if namesLit.isPrefixOf (c :: t) then parseNamesTail ((c :: t).drop namesLit.length) else none with
    | some r => some r
    | none => findNamesMatch t

/-- Status string literals of the source. -/
def stAdded : Str := "added".toList

def stDeleted : Str := "deleted".toList

def stModified : Str := "modified".toList

def stDeletedUser : Str := "deleteduser".toList

def stModifiedUser : Str := "modifieduser".toList

def newFileMode : Str := "new file mode".toList

def deletedFileMode : Str := "deleted file mode".toList

/-- Group 1 of the access regex: the full matched path. -/
def fullAccessPath (project provider hash : Str) : Str :=
  "access/".toList ++ project ++ '/' :: provider ++ '/' :: hash

/-- Group 1 of the names regex: the full matched path. -/
def fullNamesPath (hash : Str) : Str :=
  "names/".toList ++ hash

/-- One iteration of the line loop of `extract_diff_parts`: the candidate
record and status a line contributes, before deduplication.  Mirrors the
body of the `for line in diff_data.lines()` loop: the access regex is
tried first, the names regex only when it fails; the status checks test
the whole diff text for the mode markers and the line for the matched
path. -/
def classifyLine (diff_data line : Str) : Option ((Str × Str × Str) × Str) :=
  match findAccessMatch line with
  | some (project, provider, hash) =>
    let full_path := fullAccessPath project provider hash
    let status :=
      if strContains diff_data newFileMode && strContains line full_path then stAdded
      else if strContains diff_data deletedFileMode && strContains line full_path then stDeleted
      else stModified
    some ((project, provider, hash), status)
  | none =>
    match findNamesMatch line with
    | some hash =>
      let full_path := fullNamesPath hash
      let status :=
        if strContains diff_data deletedFileMode && strContains line full_path then stDeletedUser
        else stModifiedUser
      some (([], "names".toList, hash), status)
    | none => none

/-- Lookup in the record map, modelled as an association list. -/
def mapLookup (k : Str × Str × Str) : List ((Str × Str × Str) × Str) → Option Str
  | [] => none
  | (k2, v) :: t => if k2 = k then some v else mapLookup k t

/-- Model of `HashMap::entry(k).or_insert(v)`: insert only when the key
is absent. -/
def orInsert (m : List ((Str × Str × Str) × Str)) (k : Str × Str × Str) (v : Str) :
    List ((Str × Str × Str) × Str) :=
  match m with
  | [] => [(k, v)]
  | (k2, v2) :: t => if k2 = k then (k2, v2) :: t else (k2, v2) :: orInsert t k v

/-- One line folded into the record map. -/
def processLine (diff_data : Str) (m : List ((Str × Str × Str) × Str)) (line : Str) :
    List ((Str × Str × Str) × Str) :=
  match classifyLine diff_data line with
  | some (k, s) => orInsert m k s
  | none => m

/-- The record map built by the line loop of `extract_diff_parts`. -/
def diffPartsMap (diff_data : Str) : List ((Str × Str × Str) × Str) :=
  (rustLines diff_data).foldl (processLine diff_data) []

/-- Model of `extract_diff_parts`: the deduplicated records as the
4-tuples (project, provider, hash, status).  The Rust code drains a
`HashMap`, whose iteration order is unspecified; the model returns the
records in insertion order, and no claim depends on the order. -/
def extract_diff_parts (diff_data : Str) : List (Str × Str × Str × Str) :=
  (diffPartsMap diff_data).map (fun e => (e.1.1, e.1.2.1, e.1.2.2, e.2))

/-- Errors a run can abort with: transport (network, JSON, HTTP-layer)
failures propagated with `?`, and decode (base64 or UTF-8) failures. -/
inductive Err where
  | transport
  | decode
deriving DecidableEq

/-- Outcome of the GET issued by `fetch_and_decode_file` for one
(hash, ref) pair: the send can fail, the status can be non-success, the
JSON parse can fail, or the body's `content` field can be absent or
present as a base64 string. -/
inductive FetchOutcome where
  | transportErr
  | httpFail
  | jsonErr
  | noContent
  | content (b64 : Str)

/-- Identity-management operations of `user_service.rs` the driver can
invoke (external collaborators, recorded as events). -/
inductive Op where
  | addUserToGroup (user group : Str)
  | removeUserFromGroup (user group : Str)
  | deleteUser (user : Str)
deriving DecidableEq

/-- Outcome of the GET of `update_all_users` on one
`access/provider/project` listing: send failure, non-success status
(logged, skipped), JSON failure after a success status, or the listed
file names. -/
inductive ProjectListing where
  | transportErr
  | httpFail
  | jsonErr
  | files (names : List Str)

/-- The environment of one run: the prior contents of the checkpoint
file `base_commit.txt` (`none` when absent) and the outcome of every
external call the run may make, keyed by its arguments.  The identity
operations return a result the code logs and discards; it is carried in
the environment so theorems can quantify over it. -/
structure Env where
  checkpoint : Option Str
  recentCommit : Except Err Str
  latestCommit : Except Err Str
  fetchDiff : Str → Str → Except Err Str
  listAccess : Except Err (List (Option Str))
  listProvider : Str → Except Err (List (Option Str))
  listProject : Str → Str → ProjectListing
  fileFetch : Str → Str → FetchOutcome
  decode : Str → Option Str
  opResult : Op → Except Err Unit

/-- The branch literal used as the ref for non-deletion kinds. -/
def refBuild : Str := "build".toList

/-- Ref selection of `fetch_and_decode_file` (lines 114-118): deletions
read at the supplied base commit, every other kind at the `build`
branch pointer. -/
def commit_ref (status base_commit : Str) : Str :=
  if status = stDeleted ∨ status = stDeletedUser then base_commit else refBuild

/-- Model of `fetch_and_decode_file`: pick the ref from the kind, issue
the GET, treat a non-success status or a missing `content` field as
`Ok(none)`, strip newlines from the base64 payload and decode it with
the environment's decoder (the external base64 + UTF-8 machinery),
propagating a decode failure as an error. -/
def fetch_and_decode_file (fileFetch : Str → Str → FetchOutcome) (decode : Str → Option Str)
    (hash status base_commit : Str) : Except Err (Option Str) :=
  match fileFetch hash (commit_ref status base_commit) with
  | .transportErr => .error .transport
  | .httpFail => .ok none
  | .jsonErr => .error .transport
  | .noContent => .ok none
  | .content b64 =>
    match decode (b64.filter (fun c => c ≠ '\n')) with
    | some s => .ok (some s)
    | none => .error .decode

/-- Innermost loop of `update_all_users`: over the file hashes of one
project, fetch each at kind `added` and base commit `""`, skip a `None`,
record an add-to-group invocation for a decoded file (its result is
logged and discarded), and abort on a fetch error.  Returns the
operations invoked and the error that stopped the loop, if any. -/
def uauHashes (env : Env) (project_name : Str) : List Str → List Op × Option Err
  | [] => ([], none)
  | hash :: rest =>
    match fetch_and_decode_file env.fileFetch env.decode hash stAdded [] with
    | .error e => ([], some e)
    | .ok none => uauHashes env project_name rest
    | .ok (some decoded_str) =>
      let done := uauHashes env project_name rest
      (Op.addUserToGroup decoded_str project_name :: done.1, done.2)

/-- Middle loop of `update_all_users`: over the project entries of one
provider, skip entries without a name, abort on a send or JSON error of
the project listing, log and skip a non-success status, and process the
listed hashes. -/
def uauProjects (env : Env) (provider : Str) : List (Option Str) → List Op × Option Err
  | [] => ([], none)
  | none :: rest => uauProjects env provider rest
  | some project_name :: rest =>
    match env.listProject provider project_name with
    | .transportErr => ([], some .transport)
    | .jsonErr => ([], some .transport)
    | .httpFail => uauProjects env provider rest
    | .files names =>
      match uauHashes env project_name names with
      | (ops, some e) => (ops, some e)
      | (ops, none) =>
        let done := uauProjects env provider rest
        (ops ++ done.1, done.2)

/-- Outer loop of `update_all_users`: over the provider names, abort on
a listing error, otherwise process the provider's projects. -/
def uauProviders (env : Env) : List Str → List Op × Option Err
  | [] => ([], none)
  | provider :: rest =>
    match env.listProvider provider with
    | .error e => ([], some e)
    | .ok projects =>
      match uauProjects env provider projects with
      | (ops, some e) => (ops, some e)
      | (ops, none) =>
        let done := uauProviders env rest
        (ops ++ done.1, done.2)

/-- Model of `update_all_users`: list the providers under `access` (an
error aborts), keep the entries carrying a name, and walk the
provider/project/hash tree. -/
def update_all_users (env : Env) : List Op × Option Err :=
  match env.listAccess with
  | .error e => ([], some e)
  | .ok providers => uauProviders env (providers.filterMap (fun x => x))

/-- The per-record loop of `process_update_request` (lines 45-75):
fetch-and-decode each record (an error aborts the run), skip a `None`
content, skip records whose cloud-provider component differs from the
hostname, and dispatch the identity operation by status (its result is
logged and discarded). -/
def applyRecords (env : Env) (hostname last_commit : Str) :
    List (Str × Str × Str × Str) → List Op × Option Err
  | [] => ([], none)
  | (cloud_provider, project, hash, status) :: rest =>
    match fetch_and_decode_file env.fileFetch env.decode hash status last_commit with
    | .error e => ([], some e)
    | .ok none => applyRecords env hostname last_commit rest
    | .ok (some decoded_str) =>
      if cloud_provider ≠ hostname then applyRecords env hostname last_commit rest
      else
        let ops :=
          if status = stAdded then [Op.addUserToGroup decoded_str project]
          else if status = stDeleted then [Op.removeUserFromGroup decoded_str project]
          else if status = stDeletedUser then [Op.deleteUser decoded_str]
          else []
        let done := applyRecords env hostname last_commit rest
        (ops ++ done.1, done.2)

/-- Model of Rust `str::trim` (whitespace stripped from both ends). -/
def rustTrim (s : Str) : Str :=
  ((s.dropWhile Char.isWhitespace).reverse.dropWhile Char.isWhitespace).reverse

/-- Observable outcome of one run: whether it returned `Ok`, the
contents of the checkpoint file after the run, and the identity
operations invoked, in order. -/
structure RunResult where
  ok : Bool
  checkpoint : Option Str
  ops : List Op
deriving DecidableEq

/-- Model of `process_update_request`.  The checkpoint file is read into
`last_commit`; an absent file or blank contents selects the full resync,
whose `update_all_users` error is discarded (`let _ =`, line 37) before
the latest commit is resolved and persisted.  Otherwise the incremental
path resolves the recent head, fetches the diff over
(last_commit, merge_commit), applies the parsed records and persists
`merge_commit`; any error propagated with `?` aborts before the final
write, leaving the checkpoint file unchanged.  Writes to the checkpoint
file are modelled as succeeding. -/
def process_update_request (env : Env) (hostname : Str) : RunResult :=
  let should_update_all_users :=
    match env.checkpoint with
    | none => true
    | some s => (rustTrim s).isEmpty
  let last_commit :=
    match env.checkpoint with
    | none => []
    | some s => s
  if should_update_all_users then
    let done := update_all_users env
    match env.latestCommit with
    | .error _ => { ok := false, checkpoint := env.checkpoint, ops := done.1 }
    | .ok latest_commit => { ok := true, checkpoint := some latest_commit, ops := done.1 }
  else
    match env.recentCommit with
    | .error _ => { ok := false, checkpoint := env.checkpoint, ops := [] }
    | .ok merge_commit =>
      match env.fetchDiff last_commit merge_commit with
      | .error _ => { ok := false, checkpoint := env.checkpoint, ops := [] }
      | .ok diff =>
        match applyRecords env hostname last_commit (extract_diff_parts diff) with
        | (ops, some _) => { ok := false, checkpoint := env.checkpoint, ops := ops }
        | (ops, none) => { ok := true, checkpoint := some merge_commit, ops := ops }

/-! ### Substring and match lemmas -/

theorem strContains_of_prefix_drop (hay needle : Str) (i : Nat)
    (h : needle.isPrefixOf (hay.drop i) = true) : strContains hay needle = true := by
  induction hay generalizing i with
  | nil =>
    rw [List.drop_nil] at h
    unfold strContains
    simp [h]
  | cons c t ih =>
    unfold strContains
    cases i with
    | zero =>
      rw [List.drop_zero] at h
      simp [h]
    | succ n =>
      rw [List.drop_succ_cons] at h
      simp [ih n h]

theorem strContains_of_infix {hay needle : Str} (h : needle <:+: hay) :
    strContains hay needle = true := by
  obtain ⟨s, t, rfl⟩ := h
  apply strContains_of_prefix_drop _ _ s.length
  rw [List.append_assoc, List.drop_left]
  exact List.isPrefixOf_iff_prefix.mpr (List.prefix_append _ _)

theorem parseAccessTail_eq {rest p q w : Str}
    (hp : parseAccessTail rest = some (p, q, w)) :
    p ≠ [] ∧ q ≠ [] ∧ w ≠ [] ∧ ∃ r, rest = p ++ '/' :: q ++ '/' :: w ++ r := by
  unfold parseAccessTail at hp
  split at hp
  case h_1 r2 heq2 =>
    split at hp
    case h_1 r4 heq4 =>
      split at hp
      · exact absurd hp (by simp)
      case isFalse hne =>
        rw [Option.some_inj] at hp
        injection hp with h1 h23
        injection h23 with h2 h3
        subst h1; subst h2; subst h3
        simp only [Bool.or_eq_true, not_or, List.isEmpty_iff] at hne
        refine ⟨hne.1.1, hne.1.2, hne.2, List.dropWhile isWordChar r4, ?_⟩
        have e1 := List.takeWhile_append_dropWhile (fun c => decide (c ≠ '/')) rest
        have e2 := List.takeWhile_append_dropWhile (fun c => decide (c ≠ '/')) r2
        have e3 := List.takeWhile_append_dropWhile isWordChar r4
        rw [heq2] at e1
        rw [heq4] at e2
        have hrest : rest = rest.takeWhile (fun c => c ≠ '/') ++ '/' ::
            (r2.takeWhile (fun c => c ≠ '/') ++ '/' ::
              (r4.takeWhile isWordChar ++ r4.dropWhile isWordChar)) := by
          rw [e3, e2, e1]
        exact hrest.trans (by simp [List.append_assoc])
    · exact absurd hp (by simp)
  · exact absurd hp (by simp)

theorem parseNamesTail_eq {rest w : Str} (hp : parseNamesTail rest = some w) :
    w ≠ [] ∧ ∃ r, rest = w ++ r := by
  unfold parseNamesTail at hp
  split at hp
  · exact absurd hp (by simp)
  case isFalse hne =>
    rw [Option.some_inj] at hp
    subst hp
    simp only [List.isEmpty_iff] at hne
    exact ⟨hne, rest.dropWhile isWordChar, (List.takeWhile_append_dropWhile _ _).symm⟩

theorem findAccessMatch_spec {line p q w : Str}
    (hm : findAccessMatch line = some (p, q, w)) :
    fullAccessPath p q w <:+: line ∧ p ≠ [] ∧ q ≠ [] ∧ w ≠ [] := by
  induction line with
  | nil => exact absurd hm (by simp [findAccessMatch])
  | cons c t ih =>
    unfold findAccessMatch at hm
    split at hm
    case h_1 r heq =>
      rw [Option.some_inj] at hm
      subst hm
      split at heq
      case isTrue hpre =>
        have heqline : accessLit ++ (c :: t).drop accessLit.length = c :: t :=
          List.prefix_iff_eq_append.mp (List.isPrefixOf_iff_prefix.mp hpre)
        obtain ⟨hp, hq, hw, r5, hrest⟩ := parseAccessTail_eq heq
        refine ⟨⟨"diff --git a/".toList, r5, ?_⟩, hp, hq, hw⟩
        rw [← heqline, hrest]
        have hlit : accessLit = "diff --git a/".toList ++ "access/".toList := rfl
        rw [hlit]
        simp [fullAccessPath, List.append_assoc]
      case isFalse =>
        exact absurd heq (by simp)
    case h_2 heq =>
      obtain ⟨hinf, hp, hq, hw⟩ := ih hm
      exact ⟨hinf.trans (List.infix_cons (List.infix_refl t)), hp, hq, hw⟩

theorem findNamesMatch_spec {line w : Str}
    (hm : findNamesMatch line = some w) :
    fullNamesPath w <:+: line ∧ w ≠ [] := by
  induction line with
  | nil => exact absurd hm (by simp [findNamesMatch])
  | cons c t ih =>
    unfold findNamesMatch at hm
    split at hm
    case h_1 r heq =>
      rw [Option.some_inj] at hm
      subst hm
      split at heq
      case isTrue hpre =>
        have heqline : namesLit ++ (c :: t).drop namesLit.length = c :: t :=
          List.prefix_iff_eq_append.mp (List.isPrefixOf_iff_prefix.mp hpre)
        obtain ⟨hw, r5, hrest⟩ := parseNamesTail_eq heq
        refine ⟨⟨"diff --git a/".toList, r5, ?_⟩, hw⟩
        rw [← heqline, hrest]
        have hlit : namesLit = "diff --git a/".toList ++ "names/".toList := rfl
        rw [hlit]
        simp [fullNamesPath, List.append_assoc]
      case isFalse =>
        exact absurd heq (by simp)
    case h_2 heq =>
      obtain ⟨hinf, hw⟩ := ih hm
      exact ⟨hinf.trans (List.infix_cons (List.infix_refl t)), hw⟩

/-- The classification a diff assigns to every access record, once the
always-true per-line path check is discharged. -/
def accessStatus (diff_data : Str) : Str :=
  if strContains diff_data newFileMode then stAdded
  else if strContains diff_data deletedFileMode then stDeleted
  else stModified

/-- The classification a diff assigns to every names record, once the
always-true per-line path check is discharged. -/
def namesStatus (diff_data : Str) : Str :=
  if strContains diff_data deletedFileMode then stDeletedUser
  else stModifiedUser

theorem classifyLine_access {diff_data line p q w : Str}
    (hm : findAccessMatch line = some (p, q, w)) :
    classifyLine diff_data line = some ((p, q, w), accessStatus diff_data) := by
  have hc : strContains line (fullAccessPath p q w) = true :=
    strContains_of_infix (findAccessMatch_spec hm).1
  simp [classifyLine, accessStatus, hm, hc]

theorem classifyLine_names {diff_data line w : Str}
    (hna : findAccessMatch line = none) (hm : findNamesMatch line = some w) :
    classifyLine diff_data line = some (([], "names".toList, w), namesStatus diff_data) := by
  have hc : strContains line (fullNamesPath w) = true :=
    strContains_of_infix (findNamesMatch_spec hm).1
  simp [classifyLine, namesStatus, hna, hm, hc]

theorem classifyLine_inv {diff_data line : Str} {k : Str × Str × Str} {s : Str}
    (h : classifyLine diff_data line = some (k, s)) :
    (∃ p q w, findAccessMatch line = some (p, q, w) ∧ k = (p, q, w) ∧ s = accessStatus diff_data) ∨
    (∃ w, findNamesMatch line = some w ∧ k = ([], "names".toList, w) ∧ s = namesStatus diff_data) := by
  cases hma : findAccessMatch line with
  | some r =>
    obtain ⟨p, q, w⟩ := r
    have hcl := @classifyLine_access diff_data line p q w hma
    rw [h, Option.some_inj] at hcl
    injection hcl with h1 h2
    exact Or.inl ⟨p, q, w, rfl, h1, h2⟩
  | none =>
    cases hmn : findNamesMatch line with
    | some w =>
      have hcl := @classifyLine_names diff_data line w hma hmn
      rw [h, Option.some_inj] at hcl
      injection hcl with h1 h2
      exact Or.inr ⟨w, rfl, h1, h2⟩
    | none =>
      have hcl : classifyLine diff_data line = none := by
        simp [classifyLine, hma, hmn]
      rw [h] at hcl
      exact absurd hcl (by simp)

/-! ### Record-map lemmas -/

theorem mapLookup_orInsert_self (m : List ((Str × Str × Str) × Str)) (k : Str × Str × Str)
    (v : Str) : mapLookup k (orInsert m k v) = some ((mapLookup k m).getD v) := by
  induction m with
  | nil => simp [orInsert, mapLookup]
  | cons e t ih =>
    obtain ⟨k2, v2⟩ := e
    by_cases hk : k2 = k
    · subst hk
      simp [orInsert, mapLookup]
    · simp [orInsert, mapLookup, hk, ih]

theorem mapLookup_orInsert_ne (m : List ((Str × Str × Str) × Str)) {k k2 : Str × Str × Str}
    (v : Str) (h : k2 ≠ k) : mapLookup k (orInsert m k2 v) = mapLookup k m := by
  induction m with
  | nil => simp [orInsert, mapLookup, h]
  | cons e t ih =>
    obtain ⟨k3, v3⟩ := e
    by_cases hk : k3 = k2
    · subst hk
      simp [orInsert, mapLookup]
    · by_cases hk3 : k3 = k
      · subst hk3
        simp [orInsert, mapLookup, hk]
      · simp [orInsert, mapLookup, hk, hk3, ih]

/-- Status a given key receives from one line, when that line concerns
the key. -/
def classFor (diff_data : Str) (k : Str × Str × Str) (line : Str) : Option Str :=
  match classifyLine diff_data line with
  | some (k2, s) => if k2 = k then some s else none
  | none => none

/-- The status computed for the first diff line referencing a key:
the value "insert if absent" retains for that key. -/
def firstStatus (diff_data : Str) (k : Str × Str × Str) : Option Str :=
  (rustLines diff_data).findSome? (classFor diff_data k)

theorem mapLookup_foldl (diff_data : Str) (k : Str × Str × Str) :
    ∀ (lines : List Str) (m : List ((Str × Str × Str) × Str)),
    mapLookup k (lines.foldl (processLine diff_data) m)
      = (mapLookup k m).or (lines.findSome? (classFor diff_data k)) := by
  intro lines
  induction lines with
  | nil =>
    intro m
    simp
  | cons line rest ih =>
    intro m
    rw [List.foldl_cons, List.findSome?_cons]
    cases hcl : classifyLine diff_data line with
    | none =>
      have hpl : processLine diff_data m line = m := by simp [processLine, hcl]
      have hcf : classFor diff_data k line = none := by simp [classFor, hcl]
      rw [hpl, ih, hcf]
    | some e =>
      obtain ⟨k2, s⟩ := e
      have hpl : processLine diff_data m line = orInsert m k2 s := by simp [processLine, hcl]
      rw [hpl, ih]
      by_cases hk : k2 = k
      · subst hk
        have hcf : classFor diff_data k2 line = some s := by simp [classFor, hcl]
        rw [hcf, mapLookup_orInsert_self]
        cases mapLookup k2 m <;> simp
      · have hcf : classFor diff_data k line = none := by simp [classFor, hcl, hk]
        rw [hcf, mapLookup_orInsert_ne m s hk]

theorem mapLookup_diffPartsMap (diff_data : Str) (k : Str × Str × Str) :
    mapLookup k (diffPartsMap diff_data) = firstStatus diff_data k := by
  unfold diffPartsMap firstStatus
  rw [mapLookup_foldl]
  simp [mapLookup]

theorem mem_keys_orInsert {m : List ((Str × Str × Str) × Str)} {k a : Str × Str × Str} {v : Str}
    (h : a ∈ (orInsert m k v).map Prod.fst) : a ∈ m.map Prod.fst ∨ a = k := by
  induction m with
  | nil =>
    simp [orInsert] at h
    exact Or.inr h
  | cons e t ih =>
    obtain ⟨k2, v2⟩ := e
    by_cases hk : k2 = k
    · subst hk
      simp only [orInsert, if_pos rfl] at h
      exact Or.inl h
    · simp only [orInsert, if_neg hk, List.map_cons, List.mem_cons] at h
      rcases h with h | h
      · exact Or.inl (by simp [h])
      · rcases ih h with h2 | h2
        · exact Or.inl (by simp [h2])
        · exact Or.inr h2

theorem nodup_keys_orInsert {m : List ((Str × Str × Str) × Str)} (k : Str × Str × Str) (v : Str)
    (h : (m.map Prod.fst).Nodup) : ((orInsert m k v).map Prod.fst).Nodup := by
  induction m with
  | nil => simp [orInsert]
  | cons e t ih =>
    obtain ⟨k2, v2⟩ := e
    simp only [List.map_cons, List.nodup_cons] at h
    by_cases hk : k2 = k
    · subst hk
      have hoi : orInsert ((k2, v2) :: t) k2 v = (k2, v2) :: t := by simp [orInsert]
      rw [hoi]
      simp only [List.map_cons, List.nodup_cons]
      exact ⟨h.1, h.2⟩
    · simp only [orInsert, if_neg hk, List.map_cons, List.nodup_cons]
      refine ⟨fun hmem => ?_, ih h.2⟩
      rcases mem_keys_orInsert hmem with h2 | h2
      · exact h.1 h2
      · exact hk h2

theorem nodup_keys_diffPartsMap (diff_data : Str) :
    ((diffPartsMap diff_data).map Prod.fst).Nodup := by
  unfold diffPartsMap
  have hgen : ∀ (lines : List Str) (m : List ((Str × Str × Str) × Str)),
      (m.map Prod.fst).Nodup →
      ((lines.foldl (processLine diff_data) m).map Prod.fst).Nodup := by
    intro lines
    induction lines with
    | nil => intro m hm; exact hm
    | cons line rest ih =>
      intro m hm
      rw [List.foldl_cons]
      apply ih
      unfold processLine
      cases hcl : classifyLine diff_data line with
      | none => exact hm
      | some e => exact nodup_keys_orInsert e.1 e.2 hm
  exact hgen (rustLines diff_data) [] (by simp)

theorem mem_iff_mapLookup {m : List ((Str × Str × Str) × Str)}
    (hnd : (m.map Prod.fst).Nodup) (k : Str × Str × Str) (v : Str) :
    (k, v) ∈ m ↔ mapLookup k m = some v := by
  induction m with
  | nil => simp [mapLookup]
  | cons e t ih =>
    obtain ⟨k2, v2⟩ := e
    simp only [List.map_cons, List.nodup_cons] at hnd
    by_cases hk : k2 = k
    · subst hk
      have hml : mapLookup k2 ((k2, v2) :: t) = some v2 := by simp [mapLookup]
      rw [hml, Option.some_inj, List.mem_cons]
      constructor
      · rintro (he | hm)
        · injection he with h1 h2
          exact h2.symm
        · exact absurd (List.mem_map_of_mem Prod.fst hm) hnd.1
      · rintro rfl
        exact Or.inl rfl
    · have hne : ((k2, v2) : (Str × Str × Str) × Str) ≠ (k, v) := by
        intro he
        exact hk (congrArg Prod.fst he)
      simp only [mapLookup, if_neg hk, List.mem_cons]
      rw [← ih hnd.2]
      constructor
      · rintro (he | hm)
        · exact absurd he (Ne.symm hne)
        · exact hm
      · exact fun hm => Or.inr hm

theorem findSome_uniform {α β : Type} {f : α → Option β} {l : List α} {b : β}
    (h1 : ∀ a ∈ l, ∀ c, f a = some c → c = b)
    (h2 : ∃ a ∈ l, (f a).isSome = true) :
    l.findSome? f = some b := by
  induction l with
  | nil => simp at h2
  | cons a t ih =>
    rw [List.findSome?_cons]
    cases hfa : f a with
    | some c =>
      simp [h1 a (List.mem_cons_self a t) c hfa]
    | none =>
      obtain ⟨x, hx, hsome⟩ := h2
      rcases List.mem_cons.mp hx with rfl | hxt
      · rw [hfa] at hsome
        simp at hsome
      · exact ih (fun y hy => h1 y (List.mem_cons_of_mem a hy)) ⟨x, hxt, hsome⟩

theorem firstStatus_access {diff_data p q w : Str}
    (hex : ∃ line ∈ rustLines diff_data, findAccessMatch line = some (p, q, w)) :
    firstStatus diff_data (p, q, w) = some (accessStatus diff_data) := by
  obtain ⟨line0, hline0, hm0⟩ := hex
  have hp : p ≠ [] := (findAccessMatch_spec hm0).2.1
  apply findSome_uniform
  · intro line hline c hc
    unfold classFor at hc
    cases hcl : classifyLine diff_data line with
    | none => rw [hcl] at hc; exact absurd hc (by simp)
    | some e =>
      obtain ⟨k2, s⟩ := e
      rw [hcl] at hc
      simp only [] at hc
      by_cases hk : k2 = (p, q, w)
      · rw [if_pos hk] at hc
        rw [Option.some_inj] at hc
        subst hc
        rcases classifyLine_inv hcl with ⟨p2, q2, w2, _, _, hs⟩ | ⟨w2, _, hkey, hs⟩
        · exact hs
        · rw [hk] at hkey
          injection hkey with h1 _
          exact absurd h1 hp
      · rw [if_neg hk] at hc
        exact absurd hc (by simp)
  · refine ⟨line0, hline0, ?_⟩
    have := @classifyLine_access diff_data line0 p q w hm0
    unfold classFor
    rw [this]
    simp

theorem firstStatus_names {diff_data w : Str}
    (hex : ∃ line ∈ rustLines diff_data, findAccessMatch line = none ∧
      findNamesMatch line = some w) :
    firstStatus diff_data ([], "names".toList, w) = some (namesStatus diff_data) := by
  obtain ⟨line0, hline0, hna0, hm0⟩ := hex
  apply findSome_uniform
  · intro line hline c hc
    unfold classFor at hc
    cases hcl : classifyLine diff_data line with
    | none => rw [hcl] at hc; exact absurd hc (by simp)
    | some e =>
      obtain ⟨k2, s⟩ := e
      rw [hcl] at hc
      simp only [] at hc
      by_cases hk : k2 = ([], "names".toList, w)
      · rw [if_pos hk] at hc
        rw [Option.some_inj] at hc
        subst hc
        rcases classifyLine_inv hcl with ⟨p2, q2, w2, hm2, hkey, hs⟩ | ⟨w2, _, hkey, hs⟩
        · rw [hk] at hkey
          injection hkey with h1 _
          exact absurd h1.symm (findAccessMatch_spec hm2).2.1
        · exact hs
      · rw [if_neg hk] at hc
        exact absurd hc (by simp)
  · refine ⟨line0, hline0, ?_⟩
    have := @classifyLine_names diff_data line0 w hna0 hm0
    unfold classFor
    rw [this]
    simp

theorem mem_orInsert {m : List ((Str × Str × Str) × Str)} {k k2 : Str × Str × Str} {s v : Str}
    (h : (k, s) ∈ orInsert m k2 v) :
    (k, s) ∈ m ∨ ((k, s) : (Str × Str × Str) × Str) = (k2, v) := by
  induction m with
  | nil =>
    simp [orInsert] at h
    exact Or.inr (by simp [h])
  | cons e t ih =>
    obtain ⟨k3, v3⟩ := e
    by_cases hk : k3 = k2
    · subst hk
      have hoi : orInsert ((k3, v3) :: t) k3 v = (k3, v3) :: t := by simp [orInsert]
      rw [hoi] at h
      exact Or.inl h
    · have hoi : orInsert ((k3, v3) :: t) k2 v = (k3, v3) :: orInsert t k2 v := by
        simp [orInsert, hk]
      rw [hoi] at h
      rcases List.mem_cons.mp h with he | hm
      · exact Or.inl (by simp [he])
      · rcases ih hm with h2 | h2
        · exact Or.inl (List.mem_cons_of_mem _ h2)
        · exact Or.inr h2

theorem mem_diffPartsMap {diff_data : Str} {k : Str × Str × Str} {s : Str}
    (h : (k, s) ∈ diffPartsMap diff_data) :
    ∃ line ∈ rustLines diff_data, classifyLine diff_data line = some (k, s) := by
  unfold diffPartsMap at h
  have hgen : ∀ (lines : List Str) (m : List ((Str × Str × Str) × Str)),
      (k, s) ∈ lines.foldl (processLine diff_data) m →
      (k, s) ∈ m ∨ ∃ line ∈ lines, classifyLine diff_data line = some (k, s) := by
    intro lines
    induction lines with
    | nil => intro m hm; exact Or.inl hm
    | cons line rest ih =>
      intro m hm
      rw [List.foldl_cons] at hm
      rcases ih (processLine diff_data m line) hm with h2 | h2
      · unfold processLine at h2
        cases hcl : classifyLine diff_data line with
        | none =>
          rw [hcl] at h2
          exact Or.inl h2
        | some e =>
          obtain ⟨k2, v⟩ := e
          rw [hcl] at h2
          rcases mem_orInsert h2 with h3 | h3
          · exact Or.inl h3
          · refine Or.inr ⟨line, List.mem_cons_self line rest, ?_⟩
            rw [hcl, h3]
      · obtain ⟨l2, hl2, hcl2⟩ := h2
        exact Or.inr ⟨l2, List.mem_cons_of_mem line hl2, hcl2⟩
  rcases hgen (rustLines diff_data) [] h with h2 | h2
  · exact absurd h2 (by simp)
  · exact h2

theorem mem_extract_iff (diff_data : Str) (p q w s : Str) :
    (p, q, w, s) ∈ extract_diff_parts diff_data ↔ ((p, q, w), s) ∈ diffPartsMap diff_data := by
  unfold extract_diff_parts
  rw [List.mem_map]
  constructor
  · rintro ⟨e, he, hfe⟩
    obtain ⟨⟨a, b, c⟩, d⟩ := e
    injection hfe with h1 h2
    injection h2 with h2 h3
    injection h3 with h3 h4
    subst h1; subst h2; subst h3; subst h4
    exact he
  · intro he
    exact ⟨((p, q, w), s), he, rfl⟩

theorem accessStatus_cases (diff_data : Str) :
    accessStatus diff_data = stAdded ∨ accessStatus diff_data = stDeleted ∨
      accessStatus diff_data = stModified := by
  unfold accessStatus
  split
  · exact Or.inl rfl
  · split
    · exact Or.inr (Or.inl rfl)
    · exact Or.inr (Or.inr rfl)

theorem namesStatus_cases (diff_data : Str) :
    namesStatus diff_data = stDeletedUser ∨ namesStatus diff_data = stModifiedUser := by
  unfold namesStatus
  split
  · exact Or.inl rfl
  · exact Or.inr rfl

/-! ### Claims about the Diff Parser -/

/-- C4: for every diff text, each distinct (project, provider, hash) key appears
at most once in the output of `extract_diff_parts` (the mapped key list has no
duplicate), and a record (key, status) is in the output exactly when the status
is the one computed for the first diff line referencing that key — insert-if-
absent semantics, later classifications for the same key are ignored. -/
theorem C4_dedup_first_classification_wins (diff_data : Str) :
    ((extract_diff_parts diff_data).map (fun r => (r.1, r.2.1, r.2.2.1))).Nodup ∧
    (∀ p q w s, (p, q, w, s) ∈ extract_diff_parts diff_data ↔
      firstStatus diff_data (p, q, w) = some s) := by
  constructor
  · have hmaps : (extract_diff_parts diff_data).map (fun r => (r.1, r.2.1, r.2.2.1))
        = (diffPartsMap diff_data).map Prod.fst := by
      unfold extract_diff_parts
      rw [List.map_map]
      rfl
    rw [hmaps]
    exact nodup_keys_diffPartsMap diff_data
  · intro p q w s
    rw [mem_extract_iff, mem_iff_mapLookup (nodup_keys_diffPartsMap diff_data),
      mapLookup_diffPartsMap]

/-- Concrete diff used against C2: one names-tree line, no mode markers. -/
def namesDiffC2 : Str := "diff --git a/names/abc b/names/abc".toList

/-- C2 counterexample: on a diff with the single names line
`diff --git a/names/abc b/names/abc` the parser produces exactly one record,
whose key is ("", "names", "abc") — the component "names" is not the empty
string, so the record does not have both provider and project empty as the
claim states. -/
theorem C2_counterexample :
    extract_diff_parts namesDiffC2
        = [(([] : Str), "names".toList, "abc".toList, stModifiedUser)] ∧
    ("names".toList : Str) ≠ [] := by
  constructor
  · rfl
  · decide

/-- C2 amended: every names-tree record (status `deleteduser` or
`modifieduser`) carries the key ("", "names", hash): the first key component
(the parser's `project` slot, which the driver reads as the cloud-provider
slot) is empty, and the second (the parser's `provider` slot, which the driver
reads as the group slot) is the literal string "names", not the empty
string. -/
theorem C2_amended (diff_data p q w s : Str)
    (hmem : (p, q, w, s) ∈ extract_diff_parts diff_data)
    (hs : s = stDeletedUser ∨ s = stModifiedUser) :
    p = [] ∧ q = "names".toList := by
  rw [mem_extract_iff] at hmem
  obtain ⟨line, hline, hcl⟩ := mem_diffPartsMap hmem
  rcases classifyLine_inv hcl with ⟨p2, q2, w2, hm2, hkey, hsv⟩ | ⟨w2, hm2, hkey, hsv⟩
  · exfalso
    subst hsv
    rcases accessStatus_cases diff_data with ha | ha | ha <;> rw [ha] at hs <;>
      rcases hs with hs | hs <;> exact absurd hs (by decide)
  · injection hkey with h1 h2
    injection h2 with h2 h3
    exact ⟨h1, h2⟩

/-- C2 amended, witnessed on the concrete diff `namesDiffC2`. -/
theorem C2_amended_witness :
    ([] : Str) = [] ∧ ("names".toList : Str) = "names".toList :=
  C2_amended namesDiffC2 [] "names".toList "abc".toList stModifiedUser
    (by decide) (Or.inr rfl)

/-- C5: for a diff containing a line the access regex matches with captures
(p, q, w): a diff-global "new file mode" marker makes the record's status
`added`; otherwise a diff-global "deleted file mode" marker makes it
`deleted`; with neither marker it is `modified`. -/
theorem C5_marker_classification (diff_data p q w : Str)
    (hex : ∃ line ∈ rustLines diff_data, findAccessMatch line = some (p, q, w)) :
    (strContains diff_data newFileMode = true →
      (p, q, w, stAdded) ∈ extract_diff_parts diff_data) ∧
    (strContains diff_data newFileMode = false →
      strContains diff_data deletedFileMode = true →
      (p, q, w, stDeleted) ∈ extract_diff_parts diff_data) ∧
    (strContains diff_data newFileMode = false →
      strContains diff_data deletedFileMode = false →
      (p, q, w, stModified) ∈ extract_diff_parts diff_data) := by
  have hfs := firstStatus_access hex
  have hmem : ∀ s, accessStatus diff_data = s →
      (p, q, w, s) ∈ extract_diff_parts diff_data := by
    intro s h
    rw [mem_extract_iff, mem_iff_mapLookup (nodup_keys_diffPartsMap diff_data),
      mapLookup_diffPartsMap, hfs, Option.some_inj]
    exact h
  refine ⟨fun h1 => hmem _ ?_, fun h1 h2 => hmem _ ?_, fun h1 h2 => hmem _ ?_⟩
  · simp [accessStatus, h1]
  · simp [accessStatus, h1, h2]
  · simp [accessStatus, h1, h2]

/-- Concrete diff used to witness C5: an access line plus a global
new-file-mode marker. -/
def diffC5 : Str :=
  "new file mode 100644\ndiff --git a/access/p1/aws/h1 b/access/p1/aws/h1".toList

/-- C5 witnessed on the concrete diff `diffC5`. -/
theorem C5_witness :
    ("p1".toList, "aws".toList, "h1".toList, stAdded) ∈ extract_diff_parts diffC5 :=
  (C5_marker_classification diffC5 "p1".toList "aws".toList "h1".toList
    ⟨"diff --git a/access/p1/aws/h1 b/access/p1/aws/h1".toList, by decide, by decide⟩).1
    (by decide)

/-- C10: the per-line check `line.contains(full_path)` is always satisfied for
a line the access regex matched (the matched path is a substring of its own
line), so classification depends only on the diff-global markers; in
particular, when a diff contains both a "new file mode" and a "deleted file
mode" marker, every access-tree record is classified `added` and no record of
that diff is classified `deleted`. -/
theorem C10_contains_redundant_both_markers (diff_data : Str) :
    (∀ line p q w, findAccessMatch line = some (p, q, w) →
      strContains line (fullAccessPath p q w) = true) ∧
    (strContains diff_data newFileMode = true →
      strContains diff_data deletedFileMode = true →
      (∀ p q w, (∃ line ∈ rustLines diff_data, findAccessMatch line = some (p, q, w)) →
        (p, q, w, stAdded) ∈ extract_diff_parts diff_data) ∧
      (∀ p q w s, (p, q, w, s) ∈ extract_diff_parts diff_data → s ≠ stDeleted)) := by
  constructor
  · intro line p q w hm
    exact strContains_of_infix (findAccessMatch_spec hm).1
  · intro h1 h2
    constructor
    · intro p q w hex
      have hfs := firstStatus_access hex
      rw [mem_extract_iff, mem_iff_mapLookup (nodup_keys_diffPartsMap diff_data),
        mapLookup_diffPartsMap, hfs, Option.some_inj]
      simp [accessStatus, h1]
    · intro p q w s hmem hsd
      subst hsd
      rw [mem_extract_iff] at hmem
      obtain ⟨line, hline, hcl⟩ := mem_diffPartsMap hmem
      rcases classifyLine_inv hcl with ⟨p2, q2, w2, hm2, hkey, hsv⟩ | ⟨w2, hm2, hkey, hsv⟩
      · have ha : accessStatus diff_data = stAdded := by simp [accessStatus, h1]
        rw [ha] at hsv
        exact absurd hsv (by decide)
      · rcases namesStatus_cases diff_data with hn | hn <;> rw [hn] at hsv <;>
          exact absurd hsv (by decide)

/-! ### Driver lemmas -/

theorem applyRecords_opResult (env : Env) (f : Op → Except Err Unit) (hostname last : Str) :
    ∀ recs, applyRecords { env with opResult := f } hostname last recs
      = applyRecords env hostname last recs := by
  intro recs
  induction recs with
  | nil => rfl
  | cons r rest ih =>
    obtain ⟨cp, proj, hash, status⟩ := r
    unfold applyRecords
    rw [ih]

theorem applyRecords_no_error (env : Env) (hostname last : Str)
    (hfetch : ∀ hash status,
      ∃ r, fetch_and_decode_file env.fileFetch env.decode hash status last = .ok r) :
    ∀ recs, (applyRecords env hostname last recs).2 = none := by
  intro recs
  induction recs with
  | nil => rfl
  | cons r rest ih =>
    obtain ⟨cp, proj, hash, status⟩ := r
    obtain ⟨rr, hr⟩ := hfetch hash status
    unfold applyRecords
    rw [hr]
    cases rr with
    | none => exact ih
    | some dec =>
      simp only []
      by_cases hcp : cp ≠ hostname
      · rw [if_pos hcp]
        exact ih
      · rw [if_neg hcp]
        simp only []
        exact ih

theorem applyRecords_deleteUser (env : Env) (hostname last : Str)
    (hfetch : ∀ hash status,
      ∃ r, fetch_and_decode_file env.fileFetch env.decode hash status last = .ok r) :
    ∀ recs cp proj hash u, (cp, proj, hash, stDeletedUser) ∈ recs →
      cp = hostname →
      fetch_and_decode_file env.fileFetch env.decode hash stDeletedUser last = .ok (some u) →
      Op.deleteUser u ∈ (applyRecords env hostname last recs).1 := by
  intro recs
  induction recs with
  | nil =>
    intro cp proj hash u hmem
    exact absurd hmem (by simp)
  | cons r rest ih =>
    intro cp proj hash u hmem hcph hdec
    rcases List.mem_cons.mp hmem with heq | hmem2
    · subst heq
      unfold applyRecords
      rw [hdec]
      simp only []
      rw [if_neg (by simp [hcph])]
      have h1 : ¬(stDeletedUser = stAdded) := by decide
      have h2 : ¬(stDeletedUser = stDeleted) := by decide
      rw [if_neg h1, if_neg h2]
      simp
    · obtain ⟨cp2, proj2, hash2, status2⟩ := r
      obtain ⟨rr, hr⟩ := hfetch hash2 status2
      unfold applyRecords
      rw [hr]
      cases rr with
      | none => exact ih cp proj hash u hmem2 hcph hdec
      | some dec =>
        simp only []
        by_cases hcp2 : cp2 ≠ hostname
        · rw [if_pos hcp2]
          exact ih cp proj hash u hmem2 hcph hdec
        · rw [if_neg hcp2]
          simp only []
          exact List.mem_append_right _ (ih cp proj hash u hmem2 hcph hdec)

theorem applyRecords_deleteUser_inv (env : Env) (hostname last : Str) :
    ∀ recs u, Op.deleteUser u ∈ (applyRecords env hostname last recs).1 →
      ∃ cp proj hash, (cp, proj, hash, stDeletedUser) ∈ recs ∧ cp = hostname ∧
        fetch_and_decode_file env.fileFetch env.decode hash stDeletedUser last
          = .ok (some u) := by
  intro recs
  induction recs with
  | nil =>
    intro u hu
    exact absurd hu (by simp [applyRecords])
  | cons r rest ih =>
    intro u hu
    obtain ⟨cp2, proj2, hash2, status2⟩ := r
    have hlift : Op.deleteUser u ∈ (applyRecords env hostname last rest).1 →
        ∃ cp proj hash, (cp, proj, hash, stDeletedUser) ∈ (cp2, proj2, hash2, status2) :: rest ∧
          cp = hostname ∧
          fetch_and_decode_file env.fileFetch env.decode hash stDeletedUser last
            = .ok (some u) := by
      intro h2
      obtain ⟨cp, proj, hash, hmem, hch, hdec⟩ := ih u h2
      exact ⟨cp, proj, hash, List.mem_cons_of_mem _ hmem, hch, hdec⟩
    unfold applyRecords at hu
    cases hr : fetch_and_decode_file env.fileFetch env.decode hash2 status2 last with
    | error e =>
      rw [hr] at hu
      exact absurd hu (by simp)
    | ok rr =>
      rw [hr] at hu
      cases rr with
      | none => exact hlift hu
      | some dec =>
        simp only [] at hu
        by_cases hcp2 : cp2 ≠ hostname
        · rw [if_pos hcp2] at hu
          exact hlift hu
        · rw [if_neg hcp2] at hu
          simp only [] at hu
          rcases List.mem_append.mp hu with hin | hin
          · by_cases h1 : status2 = stAdded
            · rw [if_pos h1] at hin
              exact absurd (List.mem_singleton.mp hin) (by simp)
            · rw [if_neg h1] at hin
              by_cases h2 : status2 = stDeleted
              · rw [if_pos h2] at hin
                exact absurd (List.mem_singleton.mp hin) (by simp)
              · rw [if_neg h2] at hin
                by_cases h3 : status2 = stDeletedUser
                · rw [if_pos h3] at hin
                  have hdu : u = dec := by
                    have := List.mem_singleton.mp hin
                    injection this
                  subst hdu
                  subst h3
                  exact ⟨cp2, proj2, hash2, List.mem_cons_self _ _,
                    not_not.mp hcp2, hr⟩
                · rw [if_neg h3] at hin
                  exact absurd hin (by simp)
          · exact hlift hin

theorem applyRecords_error_of_fetch_error (env : Env) (hostname last : Str) :
    ∀ recs, (∃ cp proj hash status e, (cp, proj, hash, status) ∈ recs ∧
      fetch_and_decode_file env.fileFetch env.decode hash status last = .error e) →
      (applyRecords env hostname last recs).2 ≠ none := by
  intro recs
  induction recs with
  | nil =>
    rintro ⟨cp, proj, hash, status, e, hmem, _⟩
    exact absurd hmem (by simp)
  | cons r rest ih =>
    rintro ⟨cp, proj, hash, status, e, hmem, herr⟩
    obtain ⟨cp2, proj2, hash2, status2⟩ := r
    unfold applyRecords
    cases hr : fetch_and_decode_file env.fileFetch env.decode hash2 status2 last with
    | error e2 => simp
    | ok rr =>
      have hmem2 : (cp, proj, hash, status) ∈ rest := by
        rcases List.mem_cons.mp hmem with heq | h2
        · exfalso
          injection heq with e1 etail
          injection etail with e2 etail
          injection etail with e3 e4
          rw [e3, e4, hr] at herr
          exact absurd herr (by simp)
        · exact h2
      have ihr := ih ⟨cp, proj, hash, status, e, hmem2, herr⟩
      cases rr with
      | none => exact ihr
      | some dec =>
        simp only []
        by_cases hcp2 : cp2 ≠ hostname
        · rw [if_pos hcp2]
          exact ihr
        · rw [if_neg hcp2]
          simp only []
          exact ihr

/-! ### Claims about the Content Fetcher -/

/-- C6: ref selection: for kind deleted or deleteduser the ref used in the
content request equals the supplied base commit; for every other kind it is
the tracked branch pointer "build", it does not depend on the base commit,
and it differs from any base commit other than the literal "build". -/
theorem C6_ref_selection (status base_commit : Str) :
    ((status = stDeleted ∨ status = stDeletedUser) →
      commit_ref status base_commit = base_commit) ∧
    (¬(status = stDeleted ∨ status = stDeletedUser) →
      commit_ref status base_commit = refBuild ∧
      (∀ b, commit_ref status b = commit_ref status base_commit) ∧
      (base_commit ≠ refBuild → commit_ref status base_commit ≠ base_commit)) := by
  constructor
  · intro h
    unfold commit_ref
    rw [if_pos h]
  · intro h
    unfold commit_ref
    rw [if_neg h]
    refine ⟨rfl, fun b => by rw [if_neg h], fun hne he => hne he.symm⟩

/-- C6 witnessed at concrete statuses and base commits. -/
theorem C6_witness :
    commit_ref stDeleted "c0".toList = "c0".toList ∧
    commit_ref stDeletedUser "c0".toList = "c0".toList ∧
    commit_ref stAdded "c0".toList = refBuild ∧
    commit_ref stModified "c0".toList ≠ "c0".toList :=
  ⟨(C6_ref_selection stDeleted "c0".toList).1 (Or.inl rfl),
   (C6_ref_selection stDeletedUser "c0".toList).1 (Or.inr rfl),
   ((C6_ref_selection stAdded "c0".toList).2 (by decide)).1,
   ((C6_ref_selection stModified "c0".toList).2 (by decide)).2.2 (by decide)⟩

/-- C7: a non-success HTTP status from the remote store and a success response
whose JSON lacks a string content field both make the content fetch return
Ok(none) — a skip, not an error, so neither aborts the run by itself. -/
theorem C7_soft_failures_skip (fileFetch : Str → Str → FetchOutcome)
    (decode : Str → Option Str) (hash status base_commit : Str) :
    (fileFetch hash (commit_ref status base_commit) = .httpFail →
      fetch_and_decode_file fileFetch decode hash status base_commit = .ok none) ∧
    (fileFetch hash (commit_ref status base_commit) = .noContent →
      fetch_and_decode_file fileFetch decode hash status base_commit = .ok none) := by
  constructor <;> intro h <;> unfold fetch_and_decode_file <;> rw [h]

/-! ### Claims about the Reconciliation Driver -/

/-- C8: in an incremental run (checkpoint file present with non-blank
contents), a transport error while resolving the recent head commit or while
fetching the diff ends the run without writing the checkpoint file: the
persisted checkpoint equals its prior value and the run is not Ok. -/
theorem C8_transport_error_keeps_checkpoint (env : Env) (hostname s : Str)
    (hcp : env.checkpoint = some s) (hne : (rustTrim s).isEmpty = false)
    (herr : (∃ e, env.recentCommit = .error e) ∨
      (∃ m e, env.recentCommit = .ok m ∧ env.fetchDiff s m = .error e)) :
    (process_update_request env hostname).checkpoint = env.checkpoint ∧
    (process_update_request env hostname).ok = false := by
  rcases herr with ⟨e, herr⟩ | ⟨m, e, hm, hdiff⟩
  · unfold process_update_request
    rw [hcp]
    simp [hne, herr]
  · unfold process_update_request
    rw [hcp]
    simp [hne, hm, hdiff]

/-- Environment used to witness C8: a present checkpoint and a failing
recent-commit resolution. -/
def envC8 : Env where
  checkpoint := some "c0".toList
  recentCommit := .error .transport
  latestCommit := .ok "c1".toList
  fetchDiff := fun _ _ => .error .transport
  listAccess := .ok []
  listProvider := fun _ => .ok []
  listProject := fun _ _ => .files []
  fileFetch := fun _ _ => .httpFail
  decode := fun _ => none
  opResult := fun _ => .ok ()

/-- C8 witnessed on the concrete environment `envC8`. -/
theorem C8_witness :
    (process_update_request envC8 "h1".toList).checkpoint = envC8.checkpoint ∧
    (process_update_request envC8 "h1".toList).ok = false :=
  C8_transport_error_keeps_checkpoint envC8 "h1".toList "c0".toList rfl (by decide)
    (Or.inl ⟨Err.transport, rfl⟩)

/-- C9: in an incremental run that reaches the per-record loop (the head, the
diff and every per-record content fetch are non-erroring), the run completes
and persists the new head as the checkpoint whatever the results of the
identity-management operations are: the driver discards those results after
logging, so a failed add/remove/delete never aborts the run. -/
theorem C9_op_failures_do_not_abort (env : Env) (hostname s m d : Str)
    (hcp : env.checkpoint = some s) (hne : (rustTrim s).isEmpty = false)
    (hrc : env.recentCommit = .ok m) (hdiff : env.fetchDiff s m = .ok d)
    (hfetch : ∀ hash status,
      ∃ r, fetch_and_decode_file env.fileFetch env.decode hash status s = .ok r) :
    ∀ opRes, (process_update_request { env with opResult := opRes } hostname).ok = true ∧
      (process_update_request { env with opResult := opRes } hostname).checkpoint = some m := by
  intro opRes
  rcases hap : applyRecords env hostname s (extract_diff_parts d) with ⟨ops, err⟩
  have herr : err = none := by
    have h := applyRecords_no_error env hostname s hfetch (extract_diff_parts d)
    rw [hap] at h
    exact h
  subst herr
  have hap2 : applyRecords { env with opResult := opRes } hostname s (extract_diff_parts d)
      = (ops, none) := by
    rw [applyRecords_opResult, hap]
  rw [hcp, hrc] at hap2
  constructor <;>
    · unfold process_update_request
      simp [hcp, hne, hrc, hdiff, hap2]

/-- Diff used to witness C9: one access record for provider srv1. -/
def diffC9 : Str :=
  "new file mode 100644\ndiff --git a/access/srv1/proj1/h1 b/access/srv1/proj1/h1".toList

/-- Environment used to witness C9: a complete incremental run whose single
record decodes to the user alice. -/
def envC9 : Env where
  checkpoint := some "c0".toList
  recentCommit := .ok "c1".toList
  latestCommit := .ok "c1".toList
  fetchDiff := fun _ _ => .ok diffC9
  listAccess := .ok []
  listProvider := fun _ => .ok []
  listProject := fun _ _ => .files []
  fileFetch := fun _ _ => .content []
  decode := fun _ => some "alice".toList
  opResult := fun _ => .ok ()

/-- C9 witnessed on `envC9` with every identity operation failing. -/
theorem C9_witness :
    (process_update_request { envC9 with opResult := fun _ => Except.error Err.transport }
      "srv1".toList).ok = true ∧
    (process_update_request { envC9 with opResult := fun _ => Except.error Err.transport }
      "srv1".toList).checkpoint = some "c1".toList :=
  C9_op_failures_do_not_abort envC9 "srv1".toList "c0".toList "c1".toList diffC9 rfl
    (by decide) rfl rfl (fun _ _ => ⟨some "alice".toList, rfl⟩)
    (fun _ => Except.error Err.transport)

/-- Diff used against C3: a deleted names file, parsing to the single record
("", "names", "abc", "deleteduser"). -/
def diffC3 : Str :=
  "deleted file mode 100644\ndiff --git a/names/abc b/names/abc".toList

/-- Environment used against C3: a complete incremental run over `diffC3`
whose content fetch decodes to the user alice. -/
def envC3 : Env where
  checkpoint := some "c0".toList
  recentCommit := .ok "c1".toList
  latestCommit := .ok "c1".toList
  fetchDiff := fun _ _ => .ok diffC3
  listAccess := .ok []
  listProvider := fun _ => .ok []
  listProject := fun _ _ => .files []
  fileFetch := fun _ _ => .content []
  decode := fun _ => some "alice".toList
  opResult := fun _ => .ok ()

/-- C3 counterexample: the parsed diff holds exactly one record
("", "names", "abc", "deleteduser") and its content fetch decodes to
"alice", yet the run with hostname "server1" invokes no identity operation
at all — in particular no delete-user — because the record's cloud-provider
component is the empty string and fails the hostname filter, which the
driver applies after the fetch. -/
theorem C3_counterexample :
    extract_diff_parts diffC3
        = [(([] : Str), "names".toList, "abc".toList, stDeletedUser)] ∧
    fetch_and_decode_file envC3.fileFetch envC3.decode "abc".toList stDeletedUser "c0".toList
        = .ok (some "alice".toList) ∧
    process_update_request envC3 "server1".toList
        = { ok := true, checkpoint := some "c1".toList, ops := [] } :=
  ⟨rfl, rfl, rfl⟩

/-- C3 amended: in an incremental run that completes its record loop, the
delete-user operation is invoked for a decoded username exactly when some
parsed deleteduser record has its cloud-provider component equal to the
configured hostname and its content fetch decodes to that username; every
deleteduser record carries the empty cloud-provider component, so for any
non-empty hostname no delete-user call is made at all — the records are
skipped after their content fetch. -/
theorem C3_amended (env : Env) (hostname s m d : Str)
    (hcp : env.checkpoint = some s) (hne : (rustTrim s).isEmpty = false)
    (hrc : env.recentCommit = .ok m) (hdiff : env.fetchDiff s m = .ok d)
    (hfetch : ∀ hash status,
      ∃ r, fetch_and_decode_file env.fileFetch env.decode hash status s = .ok r) :
    (∀ cp proj hash u, (cp, proj, hash, stDeletedUser) ∈ extract_diff_parts d →
      cp = hostname →
      fetch_and_decode_file env.fileFetch env.decode hash stDeletedUser s = .ok (some u) →
      Op.deleteUser u ∈ (process_update_request env hostname).ops) ∧
    (∀ u, Op.deleteUser u ∈ (process_update_request env hostname).ops →
      ∃ cp proj hash, (cp, proj, hash, stDeletedUser) ∈ extract_diff_parts d ∧
        cp = hostname ∧
        fetch_and_decode_file env.fileFetch env.decode hash stDeletedUser s
          = .ok (some u)) ∧
    (∀ cp proj hash, (cp, proj, hash, stDeletedUser) ∈ extract_diff_parts d →
      cp = []) ∧
    (hostname ≠ [] →
      ∀ u, Op.deleteUser u ∉ (process_update_request env hostname).ops) := by
  rcases hap : applyRecords env hostname s (extract_diff_parts d) with ⟨ops, err⟩
  have herr : err = none := by
    have h := applyRecords_no_error env hostname s hfetch (extract_diff_parts d)
    rw [hap] at h
    exact h
  subst herr
  have hops : (process_update_request env hostname).ops = ops := by
    unfold process_update_request
    simp [hcp, hne, hrc, hdiff, hap]
  have hkey : ∀ cp proj hash, (cp, proj, hash, stDeletedUser) ∈ extract_diff_parts d →
      cp = [] := by
    intro cp proj hash hmem
    rw [mem_extract_iff] at hmem
    obtain ⟨line, hline, hcl⟩ := mem_diffPartsMap hmem
    rcases classifyLine_inv hcl with ⟨p2, q2, w2, hm2, hk2, hsv⟩ | ⟨w2, hm2, hk2, hsv⟩
    · exfalso
      rcases accessStatus_cases d with ha | ha | ha <;> rw [ha] at hsv <;>
        exact absurd hsv (by decide)
    · exact congrArg Prod.fst hk2
  have hinv : ∀ u, Op.deleteUser u ∈ (process_update_request env hostname).ops →
      ∃ cp proj hash, (cp, proj, hash, stDeletedUser) ∈ extract_diff_parts d ∧
        cp = hostname ∧
        fetch_and_decode_file env.fileFetch env.decode hash stDeletedUser s
          = .ok (some u) := by
    intro u hu
    rw [hops] at hu
    have h := applyRecords_deleteUser_inv env hostname s (extract_diff_parts d) u
    rw [hap] at h
    exact h hu
  refine ⟨?_, hinv, hkey, ?_⟩
  · intro cp proj hash u hmem hch hdec
    rw [hops]
    have h := applyRecords_deleteUser env hostname s hfetch (extract_diff_parts d)
      cp proj hash u hmem hch hdec
    rw [hap] at h
    exact h
  · intro hhost u hu
    obtain ⟨cp, proj, hash, hmem, hch, _⟩ := hinv u hu
    exact hhost (hch ▸ hkey cp proj hash hmem)

/-- C3 amended, witnessed on `envC3` with the empty hostname, for which the
delete-user operation is invoked. -/
theorem C3_amended_witness :
    Op.deleteUser "alice".toList ∈ (process_update_request envC3 []).ops :=
  (C3_amended envC3 [] "c0".toList "c1".toList diffC3 rfl (by decide) rfl rfl
    (fun _ _ => ⟨some "alice".toList, rfl⟩)).1
    [] "names".toList "abc".toList "alice".toList (by decide) rfl rfl

/-- Environment used against C1: no prior checkpoint, a failing provider
enumeration and a succeeding latest-commit resolution. -/
def envC1 : Env where
  checkpoint := none
  recentCommit := .error .transport
  latestCommit := .ok "c1".toList
  fetchDiff := fun _ _ => .error .transport
  listAccess := .error .transport
  listProvider := fun _ => .error .transport
  listProject := fun _ _ => .transportErr
  fileFetch := fun _ _ => .httpFail
  decode := fun _ => none
  opResult := fun _ => .ok ()

/-- C1 counterexample: with no prior checkpoint the run takes the full-resync
path; the enumeration `update_all_users` fails with a transport error at its
very first listing call, yet the run does not abort — the error is discarded
(`let _ =`), the latest commit is resolved and persisted, so the checkpoint
file does not retain its prior (absent) value. -/
theorem C1_counterexample :
    (update_all_users envC1).2 = some Err.transport ∧
    process_update_request envC1 "server1".toList
        = { ok := true, checkpoint := some "c1".toList, ops := [] } ∧
    envC1.checkpoint = none :=
  ⟨rfl, rfl, rfl⟩

/-- C1 amended: an error in any call the run propagates with the question
mark operator — resolving the recent head, fetching the diff, any per-record
content fetch of the incremental loop, or resolving the latest head — aborts
the run before the checkpoint write, so the checkpoint file keeps its prior
value; but an error raised by the full-resync enumeration does not abort the
run — its error is discarded, and whenever resolving the latest head succeeds
the run persists that head, whatever `update_all_users` returned. -/
theorem C1_amended (env : Env) (hostname : Str) :
    ((env.checkpoint = none ∨ (∃ s, env.checkpoint = some s ∧ (rustTrim s).isEmpty = true)) →
      ((∃ e, env.latestCommit = .error e) →
        (process_update_request env hostname).checkpoint = env.checkpoint ∧
        (process_update_request env hostname).ok = false) ∧
      (∀ c, env.latestCommit = .ok c →
        (process_update_request env hostname).checkpoint = some c ∧
        (process_update_request env hostname).ok = true)) ∧
    (∀ s, env.checkpoint = some s → (rustTrim s).isEmpty = false →
      ((∃ e, env.recentCommit = .error e) →
        (process_update_request env hostname).checkpoint = env.checkpoint ∧
        (process_update_request env hostname).ok = false) ∧
      (∀ m e, env.recentCommit = .ok m → env.fetchDiff s m = .error e →
        (process_update_request env hostname).checkpoint = env.checkpoint ∧
        (process_update_request env hostname).ok = false) ∧
      (∀ m d, env.recentCommit = .ok m → env.fetchDiff s m = .ok d →
        (∃ cp proj hash status e, (cp, proj, hash, status) ∈ extract_diff_parts d ∧
          fetch_and_decode_file env.fileFetch env.decode hash status s = .error e) →
        (process_update_request env hostname).checkpoint = env.checkpoint ∧
        (process_update_request env hostname).ok = false)) := by
  constructor
  · intro hfull
    have hsel : (match env.checkpoint with
        | none => true
        | some s => (rustTrim s).isEmpty) = true := by
      rcases hfull with h | ⟨s, hs, hemp⟩
      · rw [h]
      · rw [hs]
        exact hemp
    constructor
    · rintro ⟨e, herr⟩
      unfold process_update_request
      simp [hsel, herr]
    · intro c hlat
      unfold process_update_request
      simp [hsel, hlat]
  · intro s hcp hne
    refine ⟨?_, ?_, ?_⟩
    · rintro ⟨e, herr⟩
      unfold process_update_request
      rw [hcp]
      simp [hne, herr]
    · intro m e hm hdiff
      unfold process_update_request
      rw [hcp]
      simp [hne, hm, hdiff]
    · intro m d hm hd hex
      rcases hap : applyRecords env hostname s (extract_diff_parts d) with ⟨ops, err⟩
      have hnn := applyRecords_error_of_fetch_error env hostname s (extract_diff_parts d) hex
      rw [hap] at hnn
      cases err with
      | none => exact absurd rfl hnn
      | some e2 =>
        constructor <;>
          · unfold process_update_request
            rw [hcp]
            simp [hne, hm, hd, hap]

end Watchdog
